import Mathlib

/-!
Verification of the singing-clock convergence scanner (`scan.py`).

The Python source is shallowly embedded: pure functions become Lean
functions over `List Char`, `ℕ`, `ℤ`, `ℚ` and association lists
(Python dicts are insertion-ordered maps with unique keys, modelled as
`List (String × _)` built in insertion order).  Floating point
arithmetic is modelled with `ℚ`; the claims settled here depend only on
order/bound properties preserved by that choice.  Regular-expression
patterns of the rubric use only literal characters, `\.`, `.*` and
`.?`, so a three-token matcher is a complete embedding of the pattern
language actually used.
-/

namespace SingingClock

/-! ### Association list lookup (Python `dict[key]` / `dict.get`) -/

def alookup {α : Type} (k : String) : List (String × α) → Option α
  | [] => none
  | (k', v) :: rest => if k = k' then some v else alookup k rest

theorem alookup_cons {α : Type} (k k' : String) (v : α) (rest : List (String × α)) :
    alookup k ((k', v) :: rest) = if k = k' then some v else alookup k rest := rfl

/-! ### Substring search (Python `needle in haystack`) -/

def isPrefixL : List Char → List Char → Bool
  | [], _ => true
  | _ :: _, [] => false
  | a :: as, b :: bs => a = b && isPrefixL as bs

def containsSub (needle : List Char) : List Char → Bool
  | [] => isPrefixL needle []
  | c :: rest => isPrefixL needle (c :: rest) || containsSub needle rest

/-! ### A three-token regex engine

The rubric patterns in `scan.py` use only literals, the escape `\.`,
and the forms `.*` / `.?` (a bare `.` is supported for completeness).
`re.search` semantics: the pattern may match starting at any position;
`.` matches any character except a newline. -/

inductive Tok where
  | lit (c : Char)
  | anyChar
  | anyStar
  | anyOpt
deriving DecidableEq

def compilePat : List Char → List Tok
  | [] => []
  | '\\' :: c :: rest => Tok.lit c :: compilePat rest
  | '\\' :: [] => []
  | '.' :: '*' :: rest => Tok.anyStar :: compilePat rest
  | '.' :: '?' :: rest => Tok.anyOpt :: compilePat rest
  | '.' :: rest => Tok.anyChar :: compilePat rest
  | c :: rest => Tok.lit c :: compilePat rest

/-- Star token: `.*` consumes any number of non-newline characters before handing
the rest of the haystack to the continuation. -/
def starLoop (next : List Char → Bool) : List Char → Bool
  | [] => next []
  | x :: xs => next (x :: xs) || (x ≠ '\n' && starLoop next xs)

/-- Does the token list match a prefix of the character list? -/
def pmatch : List Tok → List Char → Bool
  | [], _ => true
  | Tok.lit _ :: _, [] => false
  | Tok.lit c :: ts, x :: xs => x = c && pmatch ts xs
  | Tok.anyChar :: _, [] => false
  | Tok.anyChar :: ts, x :: xs => x ≠ '\n' && pmatch ts xs
  | Tok.anyOpt :: ts, [] => pmatch ts []
  | Tok.anyOpt :: ts, x :: xs => pmatch ts (x :: xs) || (x ≠ '\n' && pmatch ts xs)
  | Tok.anyStar :: ts, xs => starLoop (pmatch ts) xs

/-- Search semantics of `re.search`: match at some position of the haystack. -/
def research (ts : List Tok) : List Char → Bool
  | [] => pmatch ts []
  | c :: rest => pmatch ts (c :: rest) || research ts rest

/-! ### The capability rubric (`CATEGORIES` in `scan.py`) -/

structure Category where
  name : String
  weight : ℕ
  patterns : List String

def CATEGORIES : List Category := [
  { name := "foundation", weight := 1, patterns := [
      "initial commit", "setup", "scaffold", "boilerplate",
      "package\\.json", "tsconfig", "eslint", "prettier",
      "basic.*structure", "foundation", "directory structure"] },
  { name := "elements", weight := 2, patterns := [
      "persona", "skill", "template", "memory", "element type",
      "element.*system", "crud", "create.*element", "edit.*element",
      "delete.*element", "list.*element", "get.*element",
      "element.*manager", "element.*handler", "element.*storage",
      "element.*validator", "element.*loader"] },
  { name := "agents", weight := 3, patterns := [
      "agent", "execute", "execution", "autonomy", "autonomous",
      "agentic", "goal", "objective", "step", "execution.*state",
      "execution.*lifecycle", "complete.*execution", "continue.*execution",
      "update.*execution", "agent.*loop", "budget"] },
  { name := "self_modify", weight := 5, patterns := [
      "self.?modif", "self.?improv", "self.?evolv", "self.?updat",
      "dynamic.*creat", "runtime.*creat", "programmatic.*creat",
      "auto.?generat", "element.*creat.*element", "meta.?element",
      "create.*from.*template", "derive", "compose",
      "addentry", "add.*entry", "append.*memory",
      "evolv", "adapt", "learn"] },
  { name := "meta", weight := 5, patterns := [
      "introspect", "relationship", "find.*similar", "search.*by.*verb",
      "relationship.*stats", "element.*relationship", "dependency",
      "self.?aware", "meta.?cogni", "reflect", "reason.*about",
      "ensemble", "compose", "orchestrat",
      "active.*element", "render", "context.*build"] },
  { name := "ecosystem", weight := 3, patterns := [
      "collection", "portfolio", "install", "import",
      "marketplace", "catalog", "browse", "search.*collection",
      "submit", "publish", "share", "github.*auth",
      "sync.*portfolio", "portfolio.*element"] },
  { name := "safety", weight := 2, patterns := [
      "safety", "trust", "operator", "security", "permission",
      "validation", "sanitiz", "escape", "guard", "tier",
      "safety.*tier", "operator.*safety", "secure"] },
  { name := "integration", weight := 2, patterns := [
      "ide", "studio", "electron", "bridge",
      "api.*endpoint", "rest.*api", "websocket", "stream",
      "external", "connect", "oauth", "zulip",
      "ci.?cd", "deploy", "docker"] },
  { name := "aql", weight := 4, patterns := [
      "aql", "query.*language", "query.*element", "search.*element",
      "filter", "narrow", "resolver", "disambigu",
      "mcp.*tool", "tool.*registr", "tool.*handler",
      "crude", "operation.*dispatch"] }]

def HIGH_LEVEL_CATS : List String := ["agents", "self_modify", "meta", "aql"]

/-- Lookup of a category by name (`CATEGORIES[cat_name]` /
`cat_name in CATEGORIES`). -/
def findCat : List Category → String → Option Category
  | [], _ => none
  | c :: rest, name => if c.name = name then some c else findCat rest name

/-- Weight of a known category name, `none` for unknown names. -/
def weightOf (name : String) : Option ℕ :=
  (findCat CATEGORIES name).map Category.weight

/-! ### `score_commit` -/

def lowerStr (s : String) : List Char := s.data.map Char.toLower

/-- Number of the category's compiled patterns matching the lowercased
message (`sum(1 for p in cat["compiled"] if p.search(msg_lower))`). -/
def countHits (pats : List String) (msg : List Char) : ℕ :=
  (pats.filter (fun p => research (compilePat p.data) msg)).length

/-- Per-category pattern hits for a raw message. -/
def catHits (name : String) (message : String) : ℕ :=
  match findCat CATEGORIES name with
  | none => 0
  | some c => countHits c.patterns (lowerStr message)

/-- Total pattern hits over all categories. -/
def allHits (message : String) : ℕ :=
  (CATEGORIES.map (fun c => countHits c.patterns (lowerStr message))).sum

/-- The `scores` dict built by the category loop of `score_commit`,
in `CATEGORIES` (insertion) order; zero-hit categories are omitted. -/
def buildScores (cs : List Category) (msg : List Char) : List (String × ℚ) :=
  match cs with
  | [] => []
  | c :: rest =>
      (if 0 < countHits c.patterns msg
       then [(c.name, ((c.weight * min (countHits c.patterns msg) 3 : ℕ) : ℚ))] else [])
        ++ buildScores rest msg

/-- The `total` accumulated by the category loop of `score_commit`. -/
def buildTotal (cs : List Category) (msg : List Char) : ℕ :=
  match cs with
  | [] => 0
  | c :: rest =>
      (if 0 < countHits c.patterns msg
       then c.weight * min (countHits c.patterns msg) 3 else 0) + buildTotal rest msg

/-- Pattern-derived total of a message, before the merge/feature bonus. -/
def baseTotal (message : String) : ℕ := buildTotal CATEGORIES (lowerStr message)

/-- The condition `"merge pull request" in msg_lower and ("feat" in msg_lower or
"feature" in msg_lower)`.  `"feature"` contains `"feat"`, so the second
disjunct is kept only for fidelity. -/
def mergeFeat (message : String) : Bool :=
  containsSub "merge pull request".data (lowerStr message)
    && (containsSub "feat".data (lowerStr message)
        || containsSub "feature".data (lowerStr message))

/-- The merge/feature bonus applied to the loop total:
`total = int(total * 1.5) if total > 0 else 2` when the signal is
present.  `int(total * 1.5)` on a nonnegative integer `total` is exact
truncation of `total * 3 / 2`, i.e. Nat division `3 * total / 2` (the
float product is exact for these magnitudes). -/
def bonusTotal : Bool → ℕ → ℕ
  | true, t => if 0 < t then 3 * t / 2 else 2
  | false, t => t

/-- The final floor: `if total == 0: total = 0.5`. -/
def finalTotal (t : ℕ) : ℚ := if t = 0 then (1 : ℚ) / 2 else (t : ℚ)

/-- Embedding of `score_commit(message)`. -/
def score_commit (message : String) : ℚ × List (String × ℚ) :=
  let msgLower := lowerStr message
  (finalTotal (bonusTotal (mergeFeat message) (buildTotal CATEGORIES msgLower)),
   buildScores CATEGORIES msgLower)

/-! ### `enrich_score` -/

/-- The `cats` dict built by `enrich_score`: unknown categories are
skipped, hit counts are `int()`-converted (modelled as the `ℤ` input)
and clamped by `max(1, min(3, hits))`. -/
def enrichCats : List (String × ℤ) → List (String × ℚ)
  | [] => []
  | (n, h) :: rest =>
      match weightOf n with
      | none => enrichCats rest
      | some w => (n, (((w : ℤ) * max 1 (min 3 h) : ℤ) : ℚ)) :: enrichCats rest

def enrichTotal : List (String × ℤ) → ℤ
  | [] => 0
  | (n, h) :: rest =>
      match weightOf n with
      | none => enrichTotal rest
      | some w => (w : ℤ) * max 1 (min 3 h) + enrichTotal rest

/-- Embedding of `enrich_score(raw_cats)`; `(total or 0.5)` maps a zero total to 0.5. -/
def enrich_score (raw_cats : List (String × ℤ)) : ℚ × List (String × ℚ) :=
  (if enrichTotal raw_cats = 0 then (1 : ℚ) / 2 else ((enrichTotal raw_cats : ℤ) : ℚ),
   enrichCats raw_cats)

/-! ### File classification (`_resolve_rename`, `classify_file`) -/

/-- Python `str.strip()` whitespace (ASCII subset actually occurring in paths). -/
def isPySpace (c : Char) : Bool :=
  c = ' ' || c = '\t' || c = '\n' || c = '\r' || c = '\x0b' || c = '\x0c'

def stripChars (cs : List Char) : List Char :=
  ((cs.dropWhile isPySpace).reverse.dropWhile isPySpace).reverse

/-- Scan for the first `"=>"` preceded (since the scan start) by no
closing brace: the lazy `[^}]*?=>` of the rename regex.  Returns the
characters after the arrow. -/
def findArrow : List Char → Option (List Char)
  | [] => none
  | '\x7d' :: _ => none
  | '=' :: '>' :: rest => some rest
  | _ :: rest => findArrow rest

/-- First closing brace: the lazy `([^}]*?)\x7d` tail of the rename
regex.  Returns (capture before the brace, characters after it). -/
def findClose : List Char → Option (List Char × List Char)
  | [] => none
  | '\x7d' :: rest => some ([], rest)
  | c :: rest => (findClose rest).map (fun p => (c :: p.1, p.2))

/-- One step of `re.search(r"\x7b[^\x7d]*?=>\s*([^\x7d]*?)\x7d", filepath)`:
leftmost opening brace admitting an arrow (no closing brace before it)
and then a closing brace.  Returns (prefix before the opening brace,
raw capture, suffix after the closing brace).  The `\s*` between arrow
and capture is absorbed by the later `strip()` of the capture. -/
def findBrace : List Char → Option (List Char × List Char × List Char)
  | [] => none
  | c :: rest =>
      if c = '\x7b' then
        match findArrow rest with
        | some afterArrow =>
            match findClose afterArrow with
            | some (cap, post) => some ([], cap, post)
            | none => (findBrace rest).map (fun t => (c :: t.1, t.2.1, t.2.2))
        | none => (findBrace rest).map (fun t => (c :: t.1, t.2.1, t.2.2))
      else (findBrace rest).map (fun t => (c :: t.1, t.2.1, t.2.2))

/-- The `while True` brace-rename loop.  Each replacement removes at
least the four characters of the brace/arrow syntax, so a fuel of the
string length is enough. -/
def resolveBraces : ℕ → List Char → List Char
  | 0, s => s
  | fuel + 1, s =>
      match findBrace s with
      | none => s
      | some (pre, cap, post) => resolveBraces fuel (pre ++ stripChars cap ++ post)

/-- Remainder after the last (left-to-right, non-overlapping) `"=>"`:
`filepath.split("=>")[-1]` when an arrow is present. -/
def lastArrowSuffix : List Char → Option (List Char)
  | [] => none
  | '=' :: '>' :: rest => some ((lastArrowSuffix rest).getD rest)
  | _ :: rest => lastArrowSuffix rest

/-- Embedding of `_resolve_rename(filepath)`. -/
def _resolve_rename (filepath : List Char) : List Char :=
  if containsSub "=>".data filepath = false then filepath
  else
    let s := resolveBraces filepath.length filepath
    match lastArrowSuffix s with
    | some r => stripChars r
    | none => s

/-- The `pathlib` final path component: split on `/`, drop empty and `"."`
components, take the last. -/
def pathName (fp : List Char) : List Char :=
  (((fp.splitOn '/').filter (fun p => !(p.isEmpty || p = ['.']))).getLast?).getD []

/-- Index of the last `'.'`. -/
def rfindDot : List Char → Option ℕ
  | [] => none
  | c :: rest =>
      match rfindDot rest with
      | some i => some (i + 1)
      | none => if c = '.' then some 0 else none

/-- Embedding of `Path(filepath).suffix`: the extension of the final component when
its last dot is neither the first nor the last character. -/
def pySuffix (fp : List Char) : List Char :=
  let name := pathName fp
  match rfindDot name with
  | some i => if 0 < i && i + 1 < name.length then name.drop i else []
  | none => []

def SOURCE_EXTS : List String :=
  [".ts", ".js", ".py", ".sh", ".mjs", ".cjs", ".go", ".rs", ".tsx", ".jsx"]
def TEST_PATTERNS : List String := [".test.", ".spec.", "__tests__/", "test_", "_test."]
def CONFIG_EXTS : List String := [".json", ".yml", ".yaml", ".toml", ".ini", ".cfg", ".env"]
def DOC_EXTS : List String := [".md", ".txt", ".rst"]

/-- Test-pattern check `any(p in filepath_lower for p in TEST_PATTERNS)` on the resolved path. -/
def hasTestPattern (resolved : List Char) : Bool :=
  TEST_PATTERNS.any (fun p => containsSub p.data (resolved.map Char.toLower))

/-- The extension-based classification consulted when no test pattern
matches the resolved path. -/
def extClassify (resolved : List Char) : String :=
  let ext := String.mk ((pySuffix resolved).map Char.toLower)
  if SOURCE_EXTS.contains ext then "source"
  else if CONFIG_EXTS.contains ext then "config"
  else if DOC_EXTS.contains ext then "doc"
  else "other"

/-- Embedding of `classify_file(filepath)`. -/
def classify_file (filepath : String) : String :=
  let fp := _resolve_rename filepath.data
  if hasTestPattern fp then "test" else extClassify fp

/-! ### Diffstat weighting (`apply_diffstat_weight`) -/

structure DiffStat where
  a : ℕ
  d : ℕ
  f : ℕ
  s : ℕ
  t : ℕ
  c : ℕ
  n : ℕ
deriving DecidableEq

def LARGE_SOURCE_THRESHOLD : ℕ := 100
def MEDIUM_SOURCE_THRESHOLD : ℕ := 30
def LARGE_SOURCE_BONUS : ℚ := 3 / 10
def MEDIUM_SOURCE_BONUS : ℚ := 15 / 100
def MAJOR_NEW_FILES_THRESHOLD : ℕ := 3
def MINOR_NEW_FILES_THRESHOLD : ℕ := 1
def MAJOR_NEW_FILES_BONUS : ℚ := 2 / 10
def MINOR_NEW_FILES_BONUS : ℚ := 1 / 10
def CONFIG_ONLY_MULTIPLIER : ℚ := 8 / 10
def DELETION_HEAVY_THRESHOLD : ℕ := 50
def DELETION_HEAVY_MULTIPLIER : ℚ := 85 / 100
def MULTIPLIER_FLOOR : ℚ := 4 / 10
def MULTIPLIER_CEILING : ℚ := 2
def TEST_LINES_THRESHOLD : ℕ := 10
def TEST_SAFETY_BONUS : ℚ := 2

/-- The multiplicative factor built from 1.0 before clamping. -/
def rawMultiplier (ds : DiffStat) : ℚ :=
  let m1 : ℚ := 1 + (if LARGE_SOURCE_THRESHOLD ≤ ds.s then LARGE_SOURCE_BONUS
    else if MEDIUM_SOURCE_THRESHOLD ≤ ds.s then MEDIUM_SOURCE_BONUS else 0)
  let m2 := if ds.s = 0 ∧ ds.t = 0 ∧ 0 < ds.c then m1 * CONFIG_ONLY_MULTIPLIER else m1
  let m3 := m2 + (if MAJOR_NEW_FILES_THRESHOLD ≤ ds.n then MAJOR_NEW_FILES_BONUS
    else if MINOR_NEW_FILES_THRESHOLD ≤ ds.n then MINOR_NEW_FILES_BONUS else 0)
  if ds.a < ds.d ∧ DELETION_HEAVY_THRESHOLD < ds.d then m3 * DELETION_HEAVY_MULTIPLIER else m3

/-- Clamping `max(MULTIPLIER_FLOOR, min(MULTIPLIER_CEILING, multiplier))`. -/
def clampedMultiplier (ds : DiffStat) : ℚ :=
  max MULTIPLIER_FLOOR (min MULTIPLIER_CEILING (rawMultiplier ds))

/-- Python dict assignment `cats[k] = v`: replace in place, else append. -/
def setKey (cats : List (String × ℚ)) (k : String) (v : ℚ) : List (String × ℚ) :=
  match cats with
  | [] => [(k, v)]
  | (k', v') :: rest => if k = k' then (k, v) :: rest else (k', v') :: setKey rest k v

/-- The safety bump `cats["safety"] = cats.get("safety", 0) + TEST_SAFETY_BONUS`. -/
def bumpSafety (cats : List (String × ℚ)) : List (String × ℚ) :=
  setKey cats "safety" ((alookup "safety" cats).getD 0 + TEST_SAFETY_BONUS)

/-- Embedding of `apply_diffstat_weight(total, cats, diffstat)`.  The Python guard
`if not diffstat` passes both `None` and a (never produced) empty
dict through unchanged; `none` models that falsy case.  The copy
`cats = dict(cats)` means the caller's mapping is never mutated — in
this pure embedding the returned mapping is likewise a fresh value. -/
def apply_diffstat_weight (total : ℚ) (cats : List (String × ℚ))
    (diffstat : Option DiffStat) : ℚ × List (String × ℚ) :=
  match diffstat with
  | none => (total, cats)
  | some ds =>
      let total1 := max (1 / 2 : ℚ) (total * clampedMultiplier ds)
      let cats1 := if TEST_LINES_THRESHOLD ≤ ds.t then bumpSafety cats else cats
      (total1, cats1)

/-! ### Cache files

A parsed cache file is a JSON value; `CacheFile` distinguishes a
missing file and a JSON/O-S error (both caught in the loaders) from a
successfully parsed value. -/

inductive JVal where
  | num (q : ℚ)
  | str (s : String)
  | arr (elems : List JVal)
  | obj (fields : List (String × JVal))

inductive CacheFile where
  | missing
  | corrupt
  | parsed (v : JVal)

def SCORE_CACHE_VERSION : ℕ := 3
def DIFFSTAT_CACHE_VERSION : ℕ := 1
def ENRICH_CACHE_VERSION : ℕ := 1

/-- Python `value == n` for a JSON value looked up with `.get`. -/
def isVersionNum (o : Option JVal) (n : ℕ) : Bool :=
  match o with
  | some (JVal.num q) => q = (n : ℚ)
  | _ => false

/-- Embedding of `load_diffstat_cache()`: `{}` if the file is missing; the parsed
dict if it is a dict whose `"_v"` equals the current version;
otherwise a fresh `{"_v": DIFFSTAT_CACHE_VERSION}`. -/
def load_diffstat_cache (f : CacheFile) : List (String × JVal) :=
  match f with
  | CacheFile.missing => []
  | CacheFile.corrupt => [("_v", JVal.num (DIFFSTAT_CACHE_VERSION : ℚ))]
  | CacheFile.parsed (JVal.obj fields) =>
      if isVersionNum (alookup "_v" fields) DIFFSTAT_CACHE_VERSION then fields
      else [("_v", JVal.num (DIFFSTAT_CACHE_VERSION : ℚ))]
  | CacheFile.parsed _ => [("_v", JVal.num (DIFFSTAT_CACHE_VERSION : ℚ))]

/-- Embedding of `load_score_cache()`: any parsed dict is returned as-is — there is
no file-level version key for the score cache. -/
def load_score_cache (f : CacheFile) : List (String × JVal) :=
  match f with
  | CacheFile.missing => []
  | CacheFile.corrupt => []
  | CacheFile.parsed (JVal.obj fields) => fields
  | CacheFile.parsed _ => []

/-- Embedding of `load_enrich_cache()`. -/
def load_enrich_cache (f : CacheFile) : List (String × JVal) :=
  match f with
  | CacheFile.missing => [("_v", JVal.num (ENRICH_CACHE_VERSION : ℚ))]
  | CacheFile.corrupt => [("_v", JVal.num (ENRICH_CACHE_VERSION : ℚ))]
  | CacheFile.parsed (JVal.obj fields) =>
      if isVersionNum (alookup "_v" fields) ENRICH_CACHE_VERSION then fields
      else [("_v", JVal.num (ENRICH_CACHE_VERSION : ℚ))]
  | CacheFile.parsed _ => [("_v", JVal.num (ENRICH_CACHE_VERSION : ℚ))]

/-- The per-entry version test of the scoring loop (`scan.py:1148`):
`hash_id in cache and cache[hash_id]["v"] == SCORE_CACHE_VERSION`.
An entry that is not a dict carrying `"v"` is treated as a miss (the
scanner only ever writes such dicts). -/
def usesCachedEntry (cache : List (String × JVal)) (hash : String) : Bool :=
  match alookup hash cache with
  | some (JVal.obj e) => isVersionNum (alookup "v" e) SCORE_CACHE_VERSION
  | _ => false

/-! ### Cache schema validation

The validators and the sampled spot-check are referenced by the
repository's tests (`tests/test_schema_validation.py`:
`scan._validate_diffstat_entry`, `scan._validate_score_entry`,
`scan._validate_enrich_entry`, `scan._spot_check_cache`) but the
corresponding code is absent from `scan.py`; they are modelled here
from §4.5 of the specification. -/

def isNumV (v : JVal) : Bool :=
  match v with
  | JVal.num _ => true
  | _ => false

/-- Modelled from the spec: the diffstat entry validator (absent from
`scan.py`) — "diffstat: seven required numeric fields". -/
def _validate_diffstat_entry (v : JVal) : Bool :=
  match v with
  | JVal.obj fields =>
      ["a", "d", "f", "n", "s", "t", "c"].all
        (fun k => (alookup k fields).elim false isNumV)
  | _ => false

/-- Modelled from the spec: the score entry validator (absent from
`scan.py`) — "score: version+total+category map". -/
def _validate_score_entry (v : JVal) : Bool :=
  match v with
  | JVal.obj fields =>
      (alookup "v" fields).elim false isNumV
        && (alookup "total" fields).elim false isNumV
        && (match alookup "cats" fields with
            | some (JVal.obj _) => true
            | _ => false)
  | _ => false

/-- Modelled from the spec: the enrichment entry validator (absent
from `scan.py`) — "enrichment: category→small-int map". -/
def _validate_enrich_entry (v : JVal) : Bool :=
  match v with
  | JVal.obj fields => fields.all (fun p => isNumV p.2)
  | _ => false

/-- A reserved metadata key (such as the `"_v"` version stamp):
`key.startswith("_")`. -/
def isMetaKey (k : String) : Bool :=
  match k.data with
  | '_' :: _ => true
  | _ => false

/-- Modelled from the spec: §4.5 "spot-check a bounded sample of
entries against a per-kind schema validator; a malformed sampled entry
is dropped individually, not the whole cache".  The sample is the
first `budget` non-reserved entries (keys starting with `"_"` are
reserved metadata such as the version stamp). -/
def dropMalformedSampled (validator : JVal → Bool) :
    ℕ → List (String × JVal) → List (String × JVal)
  | _, [] => []
  | budget, (k, v) :: rest =>
      if isMetaKey k then (k, v) :: dropMalformedSampled validator budget rest
      else
        match budget with
        | 0 => (k, v) :: rest
        | b + 1 =>
            (if validator v then [(k, v)] else []) ++ dropMalformedSampled validator b rest

/-- Number of non-reserved entries (the ones the bounded sample walks). -/
def nonMetaCount (l : List (String × JVal)) : ℕ :=
  (l.filter (fun p => !isMetaKey p.1)).length

/-- Modelled from the spec: `load_diffstat_cache` with the sampled
schema spot-check applied to the loaded mapping. -/
def load_diffstat_cache_checked (f : CacheFile) (maxChecks : ℕ) : List (String × JVal) :=
  dropMalformedSampled _validate_diffstat_entry maxChecks (load_diffstat_cache f)

/-- Modelled from the spec: `load_score_cache` with the sampled
schema spot-check applied to the loaded mapping. -/
def load_score_cache_checked (f : CacheFile) (maxChecks : ℕ) : List (String × JVal) :=
  dropMalformedSampled _validate_score_entry maxChecks (load_score_cache f)

/-! ### History recording (`record_history`) -/

structure PyDate where
  y : ℕ
  m : ℕ
  d : ℕ
deriving DecidableEq

def isLeapYear (y : ℕ) : Bool := y % 4 = 0 && (y % 100 ≠ 0 || y % 400 = 0)

def daysBeforeMonth (y m : ℕ) : ℕ :=
  (([31, if isLeapYear y then 29 else 28, 31, 30, 31, 30, 31, 31, 30, 31, 30, 31] :
      List ℕ).take (m - 1)).sum

/-- Embedding of `datetime.date.toordinal()` (proleptic Gregorian, 0001-01-01 ↦ 1).
The two truncating divisions subtracted never exceed what is added, so
`ℕ` subtraction is exact here. -/
def toOrdinal (dt : PyDate) : ℕ :=
  365 * (dt.y - 1) + ((dt.y - 1) / 4 + (dt.y - 1) / 400 - (dt.y - 1) / 100)
    + daysBeforeMonth dt.y dt.m + dt.d

/-- The fields of `models` read by `record_history` (ISO date strings
are modelled by the parsed dates). -/
structure Models where
  convergence_date : Option PyDate
  commit_zero : Option PyDate
  capability_95 : Option PyDate
  capability_99 : Option PyDate
  sophistication_100 : Option PyDate
deriving DecidableEq

/-- The fields of `current` read by `record_history`. -/
structure Current where
  total_commits : ℕ
  pct_of_asymptote : ℚ
deriving DecidableEq

structure HistoryEntry where
  scan_time : String
  convergence_date : Option PyDate
  commit_zero : Option PyDate
  capability_95 : Option PyDate
  capability_99 : Option PyDate
  sophistication_100 : Option PyDate
  days_until_convergence : Option ℤ
  total_commits : ℕ
  pct_of_asymptote : ℚ
deriving DecidableEq

/-- The snapshot dict built inside `record_history`; `now` is
`datetime.datetime.now().isoformat(...)` and `today` is
`datetime.date.today()`. -/
def mkHistoryEntry (models : Models) (current : Current) (now : String)
    (today : PyDate) : HistoryEntry :=
  { scan_time := now
    convergence_date := models.convergence_date
    commit_zero := models.commit_zero
    capability_95 := models.capability_95
    capability_99 := models.capability_99
    sophistication_100 := models.sophistication_100
    days_until_convergence :=
      models.convergence_date.map (fun c => (toOrdinal c : ℤ) - (toOrdinal today : ℤ))
    total_commits := current.total_commits
    pct_of_asymptote := current.pct_of_asymptote }

/-- Embedding of `record_history(models, current)` over an already-loaded history:
builds the snapshot entry and appends it unconditionally. -/
def record_history (history : List HistoryEntry) (models : Models)
    (current : Current) (now : String) (today : PyDate) : List HistoryEntry :=
  history ++ [mkHistoryEntry models current now today]

/-! ### Monthly aggregation (the `main` loop, `scan.py:1160-1206`) -/

/-- Python `round()` (round-half-to-even), on rationals. -/
def pyRound (q : ℚ) : ℤ :=
  if q - ⌊q⌋ < 1 / 2 then ⌊q⌋
  else if (1 : ℚ) / 2 < q - ⌊q⌋ then ⌊q⌋ + 1
  else if ⌊q⌋ % 2 = 0 then ⌊q⌋ else ⌊q⌋ + 1

/-- Python `round(q, 3)`. -/
def round3 (q : ℚ) : ℚ := (pyRound (1000 * q) : ℚ) / 1000

/-- The sophistication of one monthly bucket (`scan.py:1194-1197`):
`high / total_cat` where `high` sums the score mass of the high-level
categories and `total_cat` sums all of it (`1` for an empty map). -/
def sophisticationOfMonth (cats : List (String × ℚ)) : ℚ :=
  let high := ((cats.filter (fun p => HIGH_LEVEL_CATS.contains p.1)).map Prod.snd).sum
  let total_cat : ℚ :=
    match cats with
    | [] => 1
    | _ :: _ => (cats.map Prod.snd).sum
  if 0 < total_cat then high / total_cat else 0

/-- One element of the `scored` list: only the fields the monthly
aggregation reads (date, total, cats). -/
structure ScoredCommit where
  date : PyDate
  total : ℚ
  cats : List (String × ℚ)

def monthOf (s : ScoredCommit) : ℕ × ℕ := (s.date.y, s.date.m)

def monthCommits (scored : List ScoredCommit) (ym : ℕ × ℕ) : ℕ :=
  (scored.filter (fun s => decide (monthOf s = ym))).length

def monthCapability (scored : List ScoredCommit) (ym : ℕ × ℕ) : ℚ :=
  ((scored.filter (fun s => decide (monthOf s = ym))).map ScoredCommit.total).sum

/-- All (category, score) contributions of a month.  The code sums
them into a per-category dict first; both the high-level mass and the
total mass of that dict equal the corresponding sums over these raw
pairs, and the dict is empty exactly when this list is. -/
def monthPairs (scored : List ScoredCommit) (ym : ℕ × ℕ) : List (String × ℚ) :=
  (scored.filter (fun s => decide (monthOf s = ym))).flatMap ScoredCommit.cats

/-- The `all_months` loop: every `(year, month)` from the epoch while
`(y, m) <= (today.year, today.month)` in tuple order. -/
def monthsFrom (y m ty tm : ℕ) : List (ℕ × ℕ) :=
  if h : y < ty ∨ (y = ty ∧ m ≤ tm) then
    (y, m) :: (if 12 ≤ m then monthsFrom (y + 1) 1 ty tm else monthsFrom y (m + 1) ty tm)
  else []
termination_by (ty + 1 - y, 13 - m)
decreasing_by
  · exact Prod.Lex.left _ _ (by omega)
  · exact Prod.Lex.right _ (by omega)

structure MonthlyBucket where
  month : ℕ × ℕ
  commits : ℕ
  capability : ℤ
  sophistication : ℚ
  cumulative_commits : ℕ
  cumulative_capability : ℤ
deriving DecidableEq

/-- The bucket-building loop over `all_months`, carrying the running
`cum_commits` and (unrounded) `cum_capability`. -/
def buildMonthly (scored : List ScoredCommit) :
    List (ℕ × ℕ) → ℕ → ℚ → List MonthlyBucket
  | [], _, _ => []
  | ym :: rest, cumC, cumCap =>
      let c := monthCommits scored ym
      let cap := monthCapability scored ym
      { month := ym
        commits := c
        capability := pyRound cap
        sophistication := round3 (sophisticationOfMonth (monthPairs scored ym))
        cumulative_commits := cumC + c
        cumulative_capability := pyRound (cumCap + cap) }
        :: buildMonthly scored rest (cumC + c) (cumCap + cap)

/-- Monthly aggregation: one bucket per calendar month from the epoch
through today (the bucket key is modelled as the `(year, month)` pair
rather than its `"YYYY-MM"` rendering). -/
def aggregate_monthly (scored : List ScoredCommit) (epoch today : PyDate) :
    List MonthlyBucket :=
  buildMonthly scored (monthsFrom epoch.y epoch.m today.y today.m) 0 0

/-! ## Helper lemmas -/

theorem alookup_none_of_forall {α : Type} (k : String) (xs : List (String × α))
    (h : ∀ p ∈ xs, k ≠ p.1) : alookup k xs = none := by
  induction xs with
  | nil => rfl
  | cons p rest ih =>
      obtain ⟨k', v⟩ := p
      have hk : k ≠ k' := h (k', v) (List.mem_cons_self _ _)
      simp only [alookup, if_neg hk]
      exact ih (fun q hq => h q (List.mem_cons_of_mem _ hq))

theorem alookup_setKey_ne (cats : List (String × ℚ)) (k k' : String) (v : ℚ)
    (h : k ≠ k') : alookup k (setKey cats k' v) = alookup k cats := by
  induction cats with
  | nil => simp [setKey, alookup, if_neg h]
  | cons p rest ih =>
      obtain ⟨k₀, v₀⟩ := p
      by_cases h0 : k' = k₀
      · subst h0
        simp [setKey, alookup, if_neg h]
      · simp only [setKey, if_neg h0, alookup]
        by_cases h1 : k = k₀
        · simp [if_pos h1]
        · simp [if_neg h1, ih]

theorem score_commit_snd (message : String) :
    (score_commit message).2 = buildScores CATEGORIES (lowerStr message) := rfl

theorem score_commit_fst (message : String) :
    (score_commit message).1 =
      finalTotal (bonusTotal (mergeFeat message)
        (buildTotal CATEGORIES (lowerStr message))) := rfl

theorem nat_sum_zero (l : List ℕ) (h : l.sum = 0) : ∀ x ∈ l, x = 0 := by
  induction l with
  | nil => intro x hx; cases hx
  | cons a rest ih =>
      intro x hx
      rw [List.sum_cons] at h
      rcases List.mem_cons.mp hx with rfl | hx
      · omega
      · exact ih (by omega) x hx

theorem build_zero (cs : List Category) (msg : List Char)
    (h : ∀ c ∈ cs, countHits c.patterns msg = 0) :
    buildScores cs msg = [] ∧ buildTotal cs msg = 0 := by
  induction cs with
  | nil => exact ⟨rfl, rfl⟩
  | cons c rest ih =>
      have hc := h c (List.mem_cons_self _ _)
      have hrest := ih (fun c' hc' => h c' (List.mem_cons_of_mem _ hc'))
      simp [buildScores, buildTotal, hc, hrest.1, hrest.2]

/-! ## C1 — history deduplication

The specification states that `record_history` appends nothing when
the most recent stored entry has the same `(convergence_date,
total_commits)` pair.  The code (`scan.py:807-832`) builds the
snapshot and appends it unconditionally; the repository's own test
(`tests/test_history.py::test_deduplication_skips_identical`) expects
the suppression and fails against this code. -/

def dupModels : Models :=
  ⟨some ⟨2026, 6, 15⟩, some ⟨2026, 7, 1⟩, some ⟨2026, 5, 1⟩,
   some ⟨2026, 6, 1⟩, some ⟨2026, 8, 1⟩⟩

def dupCurrent : Current := ⟨150, 0⟩

def dupPrev : HistoryEntry := mkHistoryEntry dupModels dupCurrent "2026-02-01T09:00:00" ⟨2026, 2, 1⟩

/-- C1: against a history whose most recent entry carries the same
`(convergence_date, total_commits)` pair as the snapshot being
recorded, `record_history` still appends — the result has two entries,
not one.  The claimed idempotence does not hold on the code. -/
theorem record_history_appends_despite_duplicate :
    dupPrev.convergence_date = dupModels.convergence_date
    ∧ dupPrev.total_commits = dupCurrent.total_commits
    ∧ (record_history [dupPrev] dupModels dupCurrent
        "2026-02-02T09:00:00" ⟨2026, 2, 2⟩).length = 2 :=
  ⟨rfl, rfl, rfl⟩

/-! ## C2 — sophistication has no breadth term

The specification requires the sophistication of a bucket to blend the
high-level score fraction with a breadth term so that a single
high-level category cannot reach 1.0.  The code (`scan.py:1194-1197`)
computes the plain ratio `high / total_cat`; the repository's own test
(`tests/test_sophistication.py::test_single_high_commit_not_100_percent`)
expects a value `< 0.85` for `{"agents": 3}` and fails against it. -/

/-- C2: a bucket whose whole score mass sits in the single high-level
category `"agents"` gets sophistication exactly 1.0 (also after the
3-decimal rounding applied when the bucket is stored). -/
theorem sophistication_single_high_category_reaches_one :
    "agents" ∈ HIGH_LEVEL_CATS
    ∧ sophisticationOfMonth [("agents", 3)] = 1
    ∧ round3 (sophisticationOfMonth [("agents", 3)]) = 1 := by
  have hs : sophisticationOfMonth [("agents", 3)] = 1 := by
    norm_num [sophisticationOfMonth, HIGH_LEVEL_CATS, List.filter]
  refine ⟨by decide, hs, ?_⟩
  rw [hs]
  norm_num [round3, pyRound]

/-! ## C3 — cache version mismatch at load

The diffstat and enrichment caches carry a file-level `"_v"` stamp and
their loaders reset to a fresh mapping when it mismatches.  The score
cache has no file-level version: `load_score_cache` returns any parsed
dict as-is, and the version lives per entry (`"v"`), checked only when
an entry is about to be used (`scan.py:1148`). -/

/-- C3 counterexample: a score-cache file whose only entry carries
stored version 2 ≠ `SCORE_CACHE_VERSION` loads with that entry
retained — the load does not yield an empty cache (the stale entry is
merely skipped later by the per-entry check). -/
theorem load_score_cache_retains_stale_version_entry :
    load_score_cache (CacheFile.parsed (JVal.obj
        [("abc", JVal.obj [("v", JVal.num 2), ("total", JVal.num 3), ("cats", JVal.obj [])])]))
      = [("abc", JVal.obj [("v", JVal.num 2), ("total", JVal.num 3), ("cats", JVal.obj [])])]
    ∧ isVersionNum (alookup "v"
        [("v", JVal.num 2), ("total", JVal.num 3), ("cats", JVal.obj [])])
        SCORE_CACHE_VERSION = false
    ∧ usesCachedEntry
        [("abc", JVal.obj [("v", JVal.num 2), ("total", JVal.num 3), ("cats", JVal.obj [])])]
        "abc" = false :=
  ⟨rfl, rfl, rfl⟩

/-- C3 as amended: a version-mismatched file yields a fresh mapping
for the diffstat and enrichment caches; the score cache load returns
the parsed mapping unchanged, and an entry whose per-entry version
differs from `SCORE_CACHE_VERSION` is not used (it is recomputed and
overwritten). -/
theorem cache_version_mismatch_behavior (fields : List (String × JVal)) :
    (isVersionNum (alookup "_v" fields) DIFFSTAT_CACHE_VERSION = false →
      load_diffstat_cache (CacheFile.parsed (JVal.obj fields))
        = [("_v", JVal.num (DIFFSTAT_CACHE_VERSION : ℚ))])
    ∧ (isVersionNum (alookup "_v" fields) ENRICH_CACHE_VERSION = false →
      load_enrich_cache (CacheFile.parsed (JVal.obj fields))
        = [("_v", JVal.num (ENRICH_CACHE_VERSION : ℚ))])
    ∧ load_score_cache (CacheFile.parsed (JVal.obj fields)) = fields
    ∧ (∀ k entry, alookup k fields = some (JVal.obj entry) →
        isVersionNum (alookup "v" entry) SCORE_CACHE_VERSION = false →
        usesCachedEntry fields k = false) := by
  refine ⟨?_, ?_, rfl, ?_⟩
  · intro h
    simp [load_diffstat_cache, h]
  · intro h
    simp [load_enrich_cache, h]
  · intro k entry hk hv
    simp [usesCachedEntry, hk, hv]

/-- C3 witness: a diffstat/enrich file stamped `"_v": 999` resets, and
a stale score entry (version 2) is loaded but not used. -/
theorem cache_version_mismatch_behavior_witness :
    isVersionNum (alookup "_v"
        [("_v", JVal.num 999), ("aaa", JVal.num 5)]) DIFFSTAT_CACHE_VERSION = false
    ∧ alookup "bbb" [("bbb", JVal.obj [("v", JVal.num 2)])]
        = some (JVal.obj [("v", JVal.num 2)])
    ∧ isVersionNum (alookup "v" [("v", JVal.num 2)]) SCORE_CACHE_VERSION = false
    ∧ (load_diffstat_cache (CacheFile.parsed (JVal.obj
          [("_v", JVal.num 999), ("aaa", JVal.num 5)]))
        = [("_v", JVal.num (DIFFSTAT_CACHE_VERSION : ℚ))])
    ∧ usesCachedEntry [("bbb", JVal.obj [("v", JVal.num 2)])] "bbb" = false :=
  ⟨rfl, rfl, rfl,
   (cache_version_mismatch_behavior [("_v", JVal.num 999), ("aaa", JVal.num 5)]).1 rfl,
   (cache_version_mismatch_behavior [("bbb", JVal.obj [("v", JVal.num 2)])]).2.2.2
     "bbb" [("v", JVal.num 2)] rfl rfl⟩

/-! ## C5 — the zero-match floor -/

/-- C5 counterexample: `"merge pull request feat"` matches no rubric
pattern, yet `score_commit` returns total 2 (the flat merge/feature
bonus), not 0.5.  The category map is empty as claimed. -/
theorem score_commit_zero_match_merge_feat_cex :
    allHits "merge pull request feat" = 0
    ∧ (score_commit "merge pull request feat").1 = 2
    ∧ (score_commit "merge pull request feat").2 = []
    ∧ ((2 : ℚ) ≠ 1 / 2) := by
  refine ⟨by decide, ?_, rfl, by norm_num⟩
  rw [score_commit_fst]
  have h1 : mergeFeat "merge pull request feat" = true := by decide
  have h2 : buildTotal CATEGORIES (lowerStr "merge pull request feat") = 0 := by decide
  rw [h1, h2]
  norm_num [bonusTotal, finalTotal]

/-- C5 as amended: a message with zero pattern matches scores exactly
0.5 with an empty category map — unless it contains both the
merge-pull-request and feature signals, in which case the total is the
flat bonus 2 (still with an empty map). -/
theorem score_commit_zero_match_floor (msg : String) (h : allHits msg = 0) :
    (score_commit msg).2 = []
    ∧ (score_commit msg).1 = (if mergeFeat msg then 2 else 1 / 2) := by
  have hall : ∀ c ∈ CATEGORIES, countHits c.patterns (lowerStr msg) = 0 := by
    intro c hc
    exact nat_sum_zero _ h _ (List.mem_map_of_mem _ hc)
  obtain ⟨hs, ht⟩ := build_zero CATEGORIES (lowerStr msg) hall
  refine ⟨by rw [score_commit_snd, hs], ?_⟩
  rw [score_commit_fst, ht]
  cases hb : mergeFeat msg
  · simp [bonusTotal, finalTotal]
  · norm_num [bonusTotal, finalTotal]

/-- C5 witness: `"chore bump numbers"` matches nothing and scores 0.5
with an empty map. -/
theorem score_commit_zero_match_floor_witness :
    allHits "chore bump numbers" = 0
    ∧ ((score_commit "chore bump numbers").2 = []
       ∧ (score_commit "chore bump numbers").1 =
           (if mergeFeat "chore bump numbers" then 2 else 1 / 2)) :=
  ⟨by decide, score_commit_zero_match_floor _ (by decide)⟩

/-! ## C6 — the merge/feature bonus -/

/-- C6 counterexample: on the spec's own scenario message the
pattern-derived total is 3 and the bonus produces `int(3 * 1.5) = 4`,
which is not exactly 1.5 × 3 = 4.5 — the scaling truncates to an
integer. -/
theorem score_commit_merge_bonus_truncates_cex :
    baseTotal "Merge pull request #42 from feature/add-agent-feat" = 3
    ∧ (score_commit "Merge pull request #42 from feature/add-agent-feat").1 = 4
    ∧ ((4 : ℚ) ≠ 3 * (3 / 2)) := by
  refine ⟨by decide, ?_, by norm_num⟩
  rw [score_commit_fst]
  have h1 : mergeFeat "Merge pull request #42 from feature/add-agent-feat" = true := by decide
  have h2 : buildTotal CATEGORIES
      (lowerStr "Merge pull request #42 from feature/add-agent-feat") = 3 := by decide
  rw [h1, h2]
  norm_num [bonusTotal, finalTotal]

/-- C6 as amended: a message with both the merge-pull-request and
feature signals scales a positive pattern-derived total by 1.5×
truncated to an integer (`int(total * 1.5)`, i.e. `3 * total / 2` in
truncating division) and grants the flat bonus 2 when that total was
zero; the scenario's merge message still scores strictly higher than
the plain feature message. -/
theorem score_commit_merge_feature_bonus (msg : String) (h : mergeFeat msg = true) :
    (score_commit msg).1 =
      (if 0 < baseTotal msg then ((3 * baseTotal msg / 2 : ℕ) : ℚ) else 2)
    ∧ (score_commit "feat: add agent").1
        < (score_commit "Merge pull request #42 from feature/add-agent-feat").1 := by
  constructor
  · rw [score_commit_fst, h]
    unfold baseTotal
    by_cases h0 : 0 < buildTotal CATEGORIES (lowerStr msg)
    · have hne : ¬(3 * buildTotal CATEGORIES (lowerStr msg) / 2 = 0) := by omega
      simp [bonusTotal, finalTotal, if_pos h0, if_neg hne]
    · simp [bonusTotal, finalTotal, if_neg h0]
  · have e1 : (score_commit "feat: add agent").1 = ((3 : ℕ) : ℚ) := by
      rw [score_commit_fst]
      have hm : mergeFeat "feat: add agent" = false := by decide
      have hb : buildTotal CATEGORIES (lowerStr "feat: add agent") = 3 := by decide
      rw [hm, hb]
      norm_num [bonusTotal, finalTotal]
    have e2 : (score_commit "Merge pull request #42 from feature/add-agent-feat").1
        = ((4 : ℕ) : ℚ) := by
      rw [score_commit_fst]
      have hm : mergeFeat "Merge pull request #42 from feature/add-agent-feat" = true := by
        decide
      have hb : buildTotal CATEGORIES
          (lowerStr "Merge pull request #42 from feature/add-agent-feat") = 3 := by decide
      rw [hm, hb]
      norm_num [bonusTotal, finalTotal]
    rw [e1, e2]
    norm_num

/-- C6 witness: the bonus rule applied at the scenario message. -/
theorem score_commit_merge_feature_bonus_witness :
    mergeFeat "Merge pull request #42 from feature/add-agent-feat" = true
    ∧ ((score_commit "Merge pull request #42 from feature/add-agent-feat").1 =
        (if 0 < baseTotal "Merge pull request #42 from feature/add-agent-feat" then
          ((3 * baseTotal "Merge pull request #42 from feature/add-agent-feat" / 2 : ℕ) : ℚ)
         else 2)
       ∧ (score_commit "feat: add agent").1
          < (score_commit "Merge pull request #42 from feature/add-agent-feat").1) :=
  ⟨by decide, score_commit_merge_feature_bonus _ (by decide)⟩

/-! ## C7 — per-category scores and enrichment clamping -/

theorem findCat_none_of_not_mem (name : String) :
    ∀ cs : List Category, name ∉ cs.map Category.name → findCat cs name = none := by
  intro cs
  induction cs with
  | nil => intro _; rfl
  | cons c rest ih =>
      intro hn
      simp only [List.map_cons, List.mem_cons] at hn
      push_neg at hn
      unfold findCat
      rw [if_neg (fun e => hn.1 e.symm)]
      exact ih hn.2

theorem alookup_buildScores_none (msg : List Char) (name : String) :
    ∀ cs : List Category, findCat cs name = none →
      alookup name (buildScores cs msg) = none := by
  intro cs
  induction cs with
  | nil => intro _; rfl
  | cons c rest ih =>
      intro h
      unfold findCat at h
      by_cases he : c.name = name
      · rw [if_pos he] at h; cases h
      · rw [if_neg he] at h
        have hne : name ≠ c.name := fun e => he e.symm
        by_cases h0 : 0 < countHits c.patterns msg
        · simp only [buildScores, if_pos h0, List.singleton_append, alookup_cons,
            if_neg hne]
          exact ih h
        · simp only [buildScores, if_neg h0, List.nil_append]
          exact ih h

theorem alookup_buildScores_some (msg : List Char) (name : String) (c : Category) :
    ∀ cs : List Category, (cs.map Category.name).Nodup → findCat cs name = some c →
      alookup name (buildScores cs msg) =
        (if 0 < countHits c.patterns msg
         then some ((c.weight * min (countHits c.patterns msg) 3 : ℕ) : ℚ) else none) := by
  intro cs
  induction cs with
  | nil => intro _ h; cases h
  | cons c' rest ih =>
      intro hnd h
      simp only [List.map_cons, List.nodup_cons] at hnd
      unfold findCat at h
      by_cases he : c'.name = name
      · rw [if_pos he] at h
        injection h with h
        rw [← h]
        by_cases h0 : 0 < countHits c'.patterns msg
        · simp only [buildScores, if_pos h0, List.singleton_append, alookup_cons,
            if_pos he.symm]
        · simp only [buildScores, if_neg h0, List.nil_append]
          exact alookup_buildScores_none msg name rest
            (findCat_none_of_not_mem name rest (he ▸ hnd.1))
      · rw [if_neg he] at h
        have hne : name ≠ c'.name := fun e => he e.symm
        by_cases h0 : 0 < countHits c'.patterns msg
        · simp only [buildScores, if_pos h0, List.singleton_append, alookup_cons,
            if_neg hne]
          exact ih hnd.2 h
        · simp only [buildScores, if_neg h0, List.nil_append]
          exact ih hnd.2 h

theorem alookup_enrichCats_none (name : String) (hw : weightOf name = none) :
    ∀ raw : List (String × ℤ), alookup name (enrichCats raw) = none := by
  intro raw
  induction raw with
  | nil => rfl
  | cons p rest ih =>
      obtain ⟨n, h⟩ := p
      cases hwn : weightOf n with
      | none => simp only [enrichCats, hwn]; exact ih
      | some w =>
          simp only [enrichCats, hwn, alookup_cons]
          by_cases he : name = n
          · exfalso
            rw [he, hwn] at hw
            cases hw
          · rw [if_neg he]
            exact ih

theorem alookup_enrichCats_mem (name : String) (h : ℤ) (w : ℕ) :
    ∀ raw : List (String × ℤ), (raw.map Prod.fst).Nodup → (name, h) ∈ raw →
      weightOf name = some w →
      alookup name (enrichCats raw) = some (((w : ℤ) * max 1 (min 3 h) : ℤ) : ℚ) := by
  intro raw
  induction raw with
  | nil => intro _ hmem _; cases hmem
  | cons p rest ih =>
      intro hnd hmem hw
      obtain ⟨n, h'⟩ := p
      simp only [List.map_cons, List.nodup_cons] at hnd
      rcases List.mem_cons.mp hmem with heq | hmem'
      · have hn : name = n := congrArg Prod.fst heq
        have hh : h = h' := congrArg Prod.snd heq
        subst hn
        subst hh
        simp only [enrichCats, hw, alookup_cons]
        simp
      · have hne : name ≠ n := by
          intro e
          subst e
          exact hnd.1 (List.mem_map_of_mem Prod.fst hmem')
        cases hwn : weightOf n with
        | none => simp only [enrichCats, hwn]; exact ih hnd.2 hmem' hw
        | some w' =>
            simp only [enrichCats, hwn, alookup_cons]
            rw [if_neg hne]
            exact ih hnd.2 hmem' hw

/-- C7: per category, `score_commit` records `weight * min(hits, 3)`
and omits zero-hit categories; `enrich_score` drops unknown category
names and clamps each supplied hit count into `[1, 3]` before
multiplying by the same weight. -/
theorem per_category_weight_min_hits (msg : String) (raw : List (String × ℤ))
    (name : String) (hnd : (raw.map Prod.fst).Nodup) :
    (∀ w, weightOf name = some w →
      alookup name (score_commit msg).2 =
        (if 0 < catHits name msg
         then some ((w * min (catHits name msg) 3 : ℕ) : ℚ) else none))
    ∧ (weightOf name = none → alookup name (score_commit msg).2 = none)
    ∧ (weightOf name = none → alookup name (enrich_score raw).2 = none)
    ∧ (∀ w h, weightOf name = some w → (name, h) ∈ raw →
        alookup name (enrich_score raw).2 = some (((w : ℤ) * max 1 (min 3 h) : ℤ) : ℚ)) := by
  have hnd9 : (CATEGORIES.map Category.name).Nodup := by decide
  refine ⟨?_, ?_, ?_, ?_⟩
  · intro w hw
    rcases Option.map_eq_some'.mp hw with ⟨c, hc, hcw⟩
    rw [score_commit_snd, alookup_buildScores_some (lowerStr msg) name c CATEGORIES hnd9 hc]
    simp only [catHits, hc, hcw]
  · intro hw
    rw [score_commit_snd]
    exact alookup_buildScores_none (lowerStr msg) name CATEGORIES (Option.map_eq_none'.mp hw)
  · intro hw
    exact alookup_enrichCats_none name hw raw
  · intro w h hw hmem
    exact alookup_enrichCats_mem name h w raw hnd hmem hw

/-- C7 witness: `"feat: add agent"` hits `agents` once (weight 3,
score 3); enrichment of `{"agents": 7, "bogus": 2}` clamps 7 down to 3
(score 9) and drops the unknown `"bogus"`. -/
theorem per_category_weight_min_hits_witness :
    ([("agents", (7 : ℤ)), ("bogus", 2)].map Prod.fst).Nodup
    ∧ weightOf "agents" = some 3
    ∧ catHits "agents" "feat: add agent" = 1
    ∧ alookup "agents" (score_commit "feat: add agent").2 = some ((3 * min 1 3 : ℕ) : ℚ)
    ∧ alookup "agents" (enrich_score [(("agents" : String), (7 : ℤ)), ("bogus", 2)]).2
        = some (((3 : ℤ) * max 1 (min 3 7) : ℤ) : ℚ)
    ∧ weightOf "bogus" = none
    ∧ alookup "bogus" (enrich_score [(("agents" : String), (7 : ℤ)), ("bogus", 2)]).2 = none := by
  have hnd : ([(("agents" : String), (7 : ℤ)), ("bogus", 2)].map Prod.fst).Nodup := by decide
  refine ⟨hnd, by decide, by decide, ?_, ?_, by decide, ?_⟩
  · have hc : catHits "agents" "feat: add agent" = 1 := by decide
    have := (per_category_weight_min_hits "feat: add agent"
      [("agents", 7), ("bogus", 2)] "agents" hnd).1 3 (by decide)
    rw [this, hc]
    norm_num
  · exact (per_category_weight_min_hits "feat: add agent"
      [("agents", 7), ("bogus", 2)] "agents" hnd).2.2.2 3 7 (by decide)
      (List.mem_cons_self _ _)
  · exact (per_category_weight_min_hits "feat: add agent"
      [("agents", 7), ("bogus", 2)] "bogus" hnd).2.2.1 (by decide)

/-! ## C8 — diffstat weighting bounds and non-mutation -/

/-- C8: an absent diffstat passes `(total, cats)` through unchanged;
with a diffstat present, the effective multiplier is clamped into
`[MULTIPLIER_FLOOR, MULTIPLIER_CEILING]`, the returned total is
`max(0.5, total * multiplier)` and hence ≥ 0.5, and the returned
category map agrees with the input on every key other than
`"safety"` (the only possible change is the additive safety bump,
made on a copy — the input map itself is never mutated). -/
theorem apply_diffstat_weight_props (total : ℚ) (cats : List (String × ℚ)) (ds : DiffStat) :
    apply_diffstat_weight total cats none = (total, cats)
    ∧ MULTIPLIER_FLOOR ≤ clampedMultiplier ds
    ∧ clampedMultiplier ds ≤ MULTIPLIER_CEILING
    ∧ (apply_diffstat_weight total cats (some ds)).1
        = max (1 / 2) (total * clampedMultiplier ds)
    ∧ (1 / 2 : ℚ) ≤ (apply_diffstat_weight total cats (some ds)).1
    ∧ (∀ k, k ≠ "safety" →
        alookup k (apply_diffstat_weight total cats (some ds)).2 = alookup k cats) := by
  refine ⟨rfl, le_max_left _ _, ?_, rfl, le_max_left _ _, ?_⟩
  · unfold clampedMultiplier
    apply max_le
    · norm_num [MULTIPLIER_FLOOR, MULTIPLIER_CEILING]
    · exact min_le_left _ _
  · intro k hk
    show alookup k (if TEST_LINES_THRESHOLD ≤ ds.t then bumpSafety cats else cats)
      = alookup k cats
    by_cases ht : TEST_LINES_THRESHOLD ≤ ds.t
    · rw [if_pos ht]
      unfold bumpSafety
      exact alookup_setKey_ne cats k "safety" _ hk
    · rw [if_neg ht]

/-- C8 witness: a test-heavy diffstat bumps only `"safety"`; the
`"agents"` binding is untouched. -/
theorem apply_diffstat_weight_props_witness :
    (("agents" : String) ≠ "safety")
    ∧ alookup "agents" (apply_diffstat_weight 10 [("agents", 6)]
        (some ⟨0, 0, 0, 0, 10, 0, 0⟩)).2 = alookup "agents" [("agents", 6)] :=
  ⟨by decide,
   (apply_diffstat_weight_props 10 [("agents", 6)] ⟨0, 0, 0, 0, 10, 0, 0⟩).2.2.2.2.2
     "agents" (by decide)⟩

/-! ## C10 — test detection takes priority over extensions -/

/-- C10: `classify_file` first resolves git rename syntax; whenever a
test pattern occurs in the lowercased resolved path the result is
`"test"` regardless of the extension, and only otherwise is the
extension-based source/config/doc classification of the resolved path
consulted. -/
theorem classify_file_test_priority (fp : String) :
    (hasTestPattern (_resolve_rename fp.data) = true → classify_file fp = "test")
    ∧ (hasTestPattern (_resolve_rename fp.data) = false →
        classify_file fp = extClassify (_resolve_rename fp.data)) := by
  constructor <;> intro h <;> simp [classify_file, h]

/-- C10 witness: a brace rename resolving to `src/core/api.test.ts`
classifies as `"test"` although its extension `.ts` is a source
extension. -/
theorem classify_file_test_priority_witness :
    hasTestPattern (_resolve_rename "src/\x7butils => core\x7d/api.test.ts".data) = true
    ∧ String.mk (_resolve_rename "src/\x7butils => core\x7d/api.test.ts".data)
        = "src/core/api.test.ts"
    ∧ extClassify "src/core/api.test.ts".data = "source"
    ∧ classify_file "src/\x7butils => core\x7d/api.test.ts" = "test" := by
  refine ⟨by decide, by decide, by decide, ?_⟩
  exact (classify_file_test_priority "src/\x7butils => core\x7d/api.test.ts").1 (by decide)

/-! ## C4 — sampled schema validation (spec-modelled) -/

theorem nonMetaCount_cons (k' : String) (v' : JVal) (l : List (String × JVal)) :
    nonMetaCount ((k', v') :: l) =
      (if isMetaKey k' then nonMetaCount l else nonMetaCount l + 1) := by
  by_cases h : isMetaKey k'
  · simp [nonMetaCount, List.filter_cons, h]
  · simp [nonMetaCount, List.filter_cons, h]

theorem dropMalformedSampled_sublist (validator : JVal → Bool) :
    ∀ (l : List (String × JVal)) (budget : ℕ),
      List.Sublist (dropMalformedSampled validator budget l) l := by
  intro l
  induction l with
  | nil => intro _; exact List.Sublist.refl _
  | cons p rest ih =>
      intro budget
      obtain ⟨k, v⟩ := p
      by_cases hm : isMetaKey k
      · simp only [dropMalformedSampled, if_pos hm]
        exact List.Sublist.cons₂ _ (ih budget)
      · simp only [dropMalformedSampled, if_neg hm]
        cases budget with
        | zero => exact List.Sublist.refl _
        | succ b =>
            by_cases hv : validator v
            · simp only [if_pos hv, List.singleton_append]
              exact List.Sublist.cons₂ _ (ih b)
            · simp only [if_neg hv, List.nil_append]
              exact List.Sublist.cons _ (ih b)

theorem dropMalformedSampled_keeps_valid (validator : JVal → Bool) (k : String) (v : JVal) :
    ∀ (l : List (String × JVal)) (budget : ℕ), (k, v) ∈ l → validator v = true →
      (k, v) ∈ dropMalformedSampled validator budget l := by
  intro l
  induction l with
  | nil => intro _ hmem _; cases hmem
  | cons p rest ih =>
      intro budget hmem hval
      obtain ⟨k', v'⟩ := p
      rcases List.mem_cons.mp hmem with heq | hmem'
      · by_cases hm : isMetaKey k'
        · simp only [dropMalformedSampled, if_pos hm]
          exact List.mem_cons.mpr (Or.inl heq)
        · simp only [dropMalformedSampled, if_neg hm]
          cases budget with
          | zero => exact hmem
          | succ b =>
              have hv' : validator v' = true := by
                have : v = v' := congrArg Prod.snd heq
                rw [← this]
                exact hval
              simp only [if_pos hv', List.singleton_append]
              exact List.mem_cons.mpr (Or.inl heq)
      · by_cases hm : isMetaKey k'
        · simp only [dropMalformedSampled, if_pos hm]
          exact List.mem_cons_of_mem _ (ih budget hmem' hval)
        · simp only [dropMalformedSampled, if_neg hm]
          cases budget with
          | zero => exact hmem
          | succ b =>
              refine List.mem_append_right _ (ih b hmem' hval)

theorem dropMalformedSampled_drops_sampled (validator : JVal → Bool) (k : String) (v : JVal) :
    ∀ (pre : List (String × JVal)) (budget : ℕ) (post : List (String × JVal)),
      ((pre ++ (k, v) :: post).map Prod.fst).Nodup →
      isMetaKey k = false → nonMetaCount pre < budget → validator v = false →
      alookup k (dropMalformedSampled validator budget (pre ++ (k, v) :: post)) = none := by
  intro pre
  induction pre with
  | nil =>
      intro budget post hnd hk hcount hval
      cases budget with
      | zero => exact absurd hcount (by simp [nonMetaCount])
      | succ b =>
          simp only [List.nil_append] at hnd ⊢
          simp only [dropMalformedSampled, hk, if_false, Bool.false_eq_true, hval,
            List.nil_append]
          simp only [List.map_cons, List.nodup_cons] at hnd
          apply alookup_none_of_forall
          intro p hp
          intro he
          apply hnd.1
          rw [he]
          exact List.mem_map_of_mem Prod.fst
            ((dropMalformedSampled_sublist validator post b).subset hp)
  | cons q pre' ih =>
      intro budget post hnd hk hcount hval
      obtain ⟨k', v'⟩ := q
      have hkmem : k ∈ (pre' ++ (k, v) :: post).map Prod.fst :=
        List.mem_map_of_mem Prod.fst (List.mem_append_right _ (List.mem_cons_self _ _))
      simp only [List.cons_append, List.map_cons, List.nodup_cons] at hnd
      have hkk : k ≠ k' := fun e => hnd.1 (e ▸ hkmem)
      by_cases hm : isMetaKey k'
      · simp only [List.cons_append, dropMalformedSampled, if_pos hm, alookup_cons,
          if_neg hkk]
        apply ih budget post hnd.2 hk _ hval
        rw [nonMetaCount_cons, if_pos hm] at hcount
        exact hcount
      · rw [nonMetaCount_cons, if_neg hm] at hcount
        cases budget with
        | zero => omega
        | succ b =>
            simp only [List.cons_append, dropMalformedSampled, if_neg hm]
            by_cases hv' : validator v'
            · simp only [if_pos hv', List.singleton_append, alookup_cons, if_neg hkk]
              exact ih b post hnd.2 hk (by omega) hval
            · simp only [if_neg hv', List.nil_append]
              exact ih b post hnd.2 hk (by omega) hval

/-- C4 (spec-modelled): under a version-matching load, every entry
passing the per-kind schema validator is retained, and a sampled entry
failing it is dropped individually — for both the diffstat and the
score cache loads. -/
theorem checked_load_drops_malformed_keeps_valid
    (fields pre post : List (String × JVal)) (k : String) (v : JVal) (n : ℕ)
    (hnd : (fields.map Prod.fst).Nodup) :
    (isVersionNum (alookup "_v" fields) DIFFSTAT_CACHE_VERSION = true →
       ((k, v) ∈ fields → _validate_diffstat_entry v = true →
          (k, v) ∈ load_diffstat_cache_checked (CacheFile.parsed (JVal.obj fields)) n)
       ∧ (fields = pre ++ (k, v) :: post → isMetaKey k = false →
            nonMetaCount pre < n → _validate_diffstat_entry v = false →
            alookup k (load_diffstat_cache_checked (CacheFile.parsed (JVal.obj fields)) n)
              = none))
    ∧ (((k, v) ∈ fields → _validate_score_entry v = true →
          (k, v) ∈ load_score_cache_checked (CacheFile.parsed (JVal.obj fields)) n)
       ∧ (fields = pre ++ (k, v) :: post → isMetaKey k = false →
            nonMetaCount pre < n → _validate_score_entry v = false →
            alookup k (load_score_cache_checked (CacheFile.parsed (JVal.obj fields)) n)
              = none)) := by
  constructor
  · intro hv
    have hload : load_diffstat_cache (CacheFile.parsed (JVal.obj fields)) = fields := by
      simp [load_diffstat_cache, hv]
    constructor
    · intro hmem hval
      unfold load_diffstat_cache_checked
      rw [hload]
      exact dropMalformedSampled_keeps_valid _ k v fields n hmem hval
    · intro heq hk hcount hval
      unfold load_diffstat_cache_checked
      rw [hload, heq]
      exact dropMalformedSampled_drops_sampled _ k v pre n post (heq ▸ hnd) hk hcount hval
  · constructor
    · intro hmem hval
      exact dropMalformedSampled_keeps_valid _ k v fields n hmem hval
    · intro heq hk hcount hval
      show alookup k (dropMalformedSampled _validate_score_entry n fields) = none
      rw [heq]
      exact dropMalformedSampled_drops_sampled _ k v pre n post (heq ▸ hnd) hk hcount hval

/-- A schema-valid diffstat entry used by the C4 witness. -/
def sampleGoodEntry : JVal :=
  JVal.obj [("a", JVal.num 1), ("d", JVal.num 2), ("f", JVal.num 1), ("n", JVal.num 0),
    ("s", JVal.num 1), ("t", JVal.num 0), ("c", JVal.num 0)]

/-- A diffstat cache mapping holding a malformed entry between two
valid ones, used by the C4 witness. -/
def sampleFields : List (String × JVal) :=
  [("_v", JVal.num 1), ("aaa", sampleGoodEntry), ("bbb", JVal.str "bad"),
   ("ccc", sampleGoodEntry)]

/-- C4 witness: among a good/bad/good trio of diffstat entries, the
malformed middle entry is dropped while both valid siblings and the
version stamp survive. -/
theorem checked_load_drops_malformed_keeps_valid_witness :
    (sampleFields.map Prod.fst).Nodup
    ∧ _validate_diffstat_entry sampleGoodEntry = true
    ∧ _validate_diffstat_entry (JVal.str "bad") = false
    ∧ (("aaa" : String), sampleGoodEntry)
        ∈ load_diffstat_cache_checked (CacheFile.parsed (JVal.obj sampleFields)) 5
    ∧ alookup "bbb"
        (load_diffstat_cache_checked (CacheFile.parsed (JVal.obj sampleFields)) 5) = none := by
  refine ⟨by decide, rfl, rfl, ?_, ?_⟩
  · exact (checked_load_drops_malformed_keeps_valid sampleFields [] [] "aaa"
      sampleGoodEntry 5 (by decide)).1 rfl |>.1
      (List.mem_cons_of_mem _ (List.mem_cons_self _ _)) rfl
  · exact (checked_load_drops_malformed_keeps_valid sampleFields
      [("_v", JVal.num 1), ("aaa", sampleGoodEntry)] [("ccc", sampleGoodEntry)]
      "bbb" (JVal.str "bad") 5 (by decide)).1 rfl |>.2 rfl rfl (by decide) rfl

/-! ## C9 — monthly aggregation invariants -/

theorem pyRound_mono {x y : ℚ} (h : x ≤ y) : pyRound x ≤ pyRound y := by
  have hf : ⌊x⌋ ≤ ⌊y⌋ := Int.floor_le_floor h
  rcases lt_or_eq_of_le hf with hlt | heq
  · have hx2 : pyRound x ≤ ⌊x⌋ + 1 := by unfold pyRound; split_ifs <;> omega
    have hy1 : ⌊y⌋ ≤ pyRound y := by unfold pyRound; split_ifs <;> omega
    omega
  · have hxy : x - (⌊y⌋ : ℚ) ≤ y - (⌊y⌋ : ℚ) := sub_le_sub_right h _
    unfold pyRound
    rw [heq]
    split_ifs <;> first | omega | linarith

theorem pyRound_intCast (n : ℤ) : pyRound (n : ℚ) = n := by
  unfold pyRound
  rw [Int.floor_intCast]
  norm_num

theorem round3_mem_unit (q : ℚ) (h0 : 0 ≤ q) (h1 : q ≤ 1) :
    0 ≤ round3 q ∧ round3 q ≤ 1 := by
  have l0 : pyRound ((0 : ℤ) : ℚ) ≤ pyRound (1000 * q) := pyRound_mono (by push_cast; linarith)
  have l1 : pyRound (1000 * q) ≤ pyRound ((1000 : ℤ) : ℚ) := pyRound_mono (by push_cast; linarith)
  rw [pyRound_intCast] at l0 l1
  unfold round3
  constructor
  · apply div_nonneg _ (by norm_num)
    exact_mod_cast l0
  · rw [div_le_one (by norm_num : (0 : ℚ) < 1000)]
    exact_mod_cast l1

theorem list_sum_nonneg_q (l : List ℚ) (h : ∀ x ∈ l, 0 ≤ x) : 0 ≤ l.sum := by
  induction l with
  | nil => simp
  | cons a rest ih =>
      rw [List.sum_cons]
      have ha := h a (List.mem_cons_self _ _)
      have hr := ih (fun x hx => h x (List.mem_cons_of_mem _ hx))
      linarith

theorem filter_sum_le (p : String × ℚ → Bool) :
    ∀ l : List (String × ℚ), (∀ x ∈ l, 0 ≤ x.2) →
      ((l.filter p).map Prod.snd).sum ≤ (l.map Prod.snd).sum := by
  intro l
  induction l with
  | nil => intro _; simp
  | cons a rest ih =>
      intro h
      have ha := h a (List.mem_cons_self _ _)
      have hr := ih (fun x hx => h x (List.mem_cons_of_mem _ hx))
      by_cases hp : p a
      · simp only [List.filter_cons, hp, if_pos, List.map_cons, List.sum_cons]
        linarith
      · simp only [List.filter_cons, List.map_cons, List.sum_cons]
        rw [if_neg (by simp [hp])]
        linarith

theorem sophisticationOfMonth_mem_unit (cats : List (String × ℚ))
    (h : ∀ p ∈ cats, 0 ≤ p.2) :
    0 ≤ sophisticationOfMonth cats ∧ sophisticationOfMonth cats ≤ 1 := by
  have hh0 : 0 ≤ ((cats.filter (fun p => HIGH_LEVEL_CATS.contains p.1)).map Prod.snd).sum := by
    apply list_sum_nonneg_q
    intro x hx
    rcases List.mem_map.mp hx with ⟨q, hq, rfl⟩
    exact h q (List.mem_of_mem_filter hq)
  rcases cats with _ | ⟨p0, rest⟩
  · norm_num [sophisticationOfMonth]
  · unfold sophisticationOfMonth
    dsimp only
    split_ifs with hpos
    · constructor
      · exact div_nonneg hh0 hpos.le
      · rw [div_le_one hpos]
        exact filter_sum_le _ _ h
    · norm_num

theorem monthCapability_nonneg (scored : List ScoredCommit) (ym : ℕ × ℕ)
    (ht : ∀ s ∈ scored, 0 ≤ s.total) : 0 ≤ monthCapability scored ym := by
  apply list_sum_nonneg_q
  intro x hx
  rcases List.mem_map.mp hx with ⟨s, hs, rfl⟩
  exact ht s (List.mem_of_mem_filter hs)

theorem monthCapability_of_no_commits (scored : List ScoredCommit) (ym : ℕ × ℕ)
    (h : monthCommits scored ym = 0) : monthCapability scored ym = 0 := by
  unfold monthCommits at h
  unfold monthCapability
  rw [List.length_eq_zero.mp h]
  rfl

theorem monthPairs_nonneg (scored : List ScoredCommit) (ym : ℕ × ℕ)
    (hc : ∀ s ∈ scored, ∀ p ∈ s.cats, 0 ≤ p.2) :
    ∀ p ∈ monthPairs scored ym, 0 ≤ p.2 := by
  intro p hp
  rcases List.mem_flatMap.mp hp with ⟨s, hs, hps⟩
  exact hc s (List.mem_of_mem_filter hs) p hps

theorem buildMonthly_months (scored : List ScoredCommit) :
    ∀ (months : List (ℕ × ℕ)) (cumC : ℕ) (cumCap : ℚ),
      (buildMonthly scored months cumC cumCap).map MonthlyBucket.month = months := by
  intro months
  induction months with
  | nil => intro _ _; rfl
  | cons ym rest ih =>
      intro cumC cumCap
      simp only [buildMonthly, List.map_cons]
      rw [ih]

theorem buildMonthly_chain_commits (scored : List ScoredCommit) :
    ∀ (months : List (ℕ × ℕ)) (cumC : ℕ) (cumCap : ℚ),
      List.Chain' (fun a b => a.cumulative_commits ≤ b.cumulative_commits)
        (buildMonthly scored months cumC cumCap) := by
  intro months
  induction months with
  | nil => intro _ _; exact trivial
  | cons ym rest ih =>
      intro cumC cumCap
      rcases rest with _ | ⟨ym2, rest2⟩
      · simp [buildMonthly]
      · simp only [buildMonthly]
        rw [List.chain'_cons]
        refine ⟨?_, ih _ _⟩
        show cumC + monthCommits scored ym
          ≤ cumC + monthCommits scored ym + monthCommits scored ym2
        omega

theorem buildMonthly_chain_capability (scored : List ScoredCommit)
    (ht : ∀ s ∈ scored, 0 ≤ s.total) :
    ∀ (months : List (ℕ × ℕ)) (cumC : ℕ) (cumCap : ℚ),
      List.Chain' (fun a b => a.cumulative_capability ≤ b.cumulative_capability)
        (buildMonthly scored months cumC cumCap) := by
  intro months
  induction months with
  | nil => intro _ _; exact trivial
  | cons ym rest ih =>
      intro cumC cumCap
      rcases rest with _ | ⟨ym2, rest2⟩
      · simp [buildMonthly]
      · simp only [buildMonthly]
        rw [List.chain'_cons]
        refine ⟨?_, ih _ _⟩
        show pyRound (cumCap + monthCapability scored ym)
          ≤ pyRound (cumCap + monthCapability scored ym + monthCapability scored ym2)
        apply pyRound_mono
        have := monthCapability_nonneg scored ym2 ht
        linarith

theorem buildMonthly_soph_mem_unit (scored : List ScoredCommit)
    (hc : ∀ s ∈ scored, ∀ p ∈ s.cats, 0 ≤ p.2) :
    ∀ (months : List (ℕ × ℕ)) (cumC : ℕ) (cumCap : ℚ),
      ∀ b ∈ buildMonthly scored months cumC cumCap,
        0 ≤ b.sophistication ∧ b.sophistication ≤ 1 := by
  intro months
  induction months with
  | nil => intro _ _ b hb; cases hb
  | cons ym rest ih =>
      intro cumC cumCap b hb
      rcases List.mem_cons.mp hb with rfl | hb'
      · show 0 ≤ round3 (sophisticationOfMonth (monthPairs scored ym)) ∧ _
        have hs := sophisticationOfMonth_mem_unit (monthPairs scored ym)
          (monthPairs_nonneg scored ym hc)
        exact round3_mem_unit _ hs.1 hs.2
      · exact ih _ _ b hb'

theorem buildMonthly_zero_filled (scored : List ScoredCommit) :
    ∀ (months : List (ℕ × ℕ)) (cumC : ℕ) (cumCap : ℚ),
      ∀ b ∈ buildMonthly scored months cumC cumCap,
        monthCommits scored b.month = 0 → b.commits = 0 ∧ b.capability = 0 := by
  intro months
  induction months with
  | nil => intro _ _ b hb; cases hb
  | cons ym rest ih =>
      intro cumC cumCap b hb h0
      rcases List.mem_cons.mp hb with rfl | hb'
      · refine ⟨h0, ?_⟩
        show pyRound (monthCapability scored ym) = 0
        rw [monthCapability_of_no_commits scored ym h0]
        have := pyRound_intCast 0
        rw [Int.cast_zero] at this
        exact this
      · exact ih _ _ b hb' h0

theorem monthsFrom_mem : ∀ y m ty tm : ℕ, ∀ y' m' : ℕ, m ≤ 12 → 1 ≤ m' → m' ≤ 12 →
    (y < y' ∨ (y = y' ∧ m ≤ m')) → (y' < ty ∨ (y' = ty ∧ m' ≤ tm)) →
    (y', m') ∈ monthsFrom y m ty tm := by
  intro y m ty tm
  induction y, m, ty, tm using monthsFrom.induct with
  | case1 y m ty tm h ih1 ih2 =>
      intro y' m' hm h1 h2 hlo hhi
      rw [monthsFrom, dif_pos h]
      by_cases h12 : 12 ≤ m
      · rw [if_pos h12]
        by_cases heq : (y', m') = (y, m)
        · exact List.mem_cons.mpr (Or.inl heq)
        · have hne : ¬(y = y' ∧ m = m') := fun ⟨a, b⟩ => heq (by rw [a, b])
          exact List.mem_cons_of_mem _ (ih1 y' m' (by omega) h1 h2 (by omega) hhi)
      · rw [if_neg h12]
        by_cases heq : (y', m') = (y, m)
        · exact List.mem_cons.mpr (Or.inl heq)
        · have hne : ¬(y = y' ∧ m = m') := fun ⟨a, b⟩ => heq (by rw [a, b])
          exact List.mem_cons_of_mem _ (ih2 h12 y' m' (by omega) h1 h2 (by omega) hhi)
  | case2 y m ty tm h =>
      intro y' m' hm h1 h2 hlo hhi
      exact absurd trivial (by omega)

/-- C9: the monthly series has one bucket per calendar month from the
epoch through the run date (zero-filled for months with no commits),
and over any scored input with nonnegative totals and category scores,
`cumulative_commits` and `cumulative_capability` are non-decreasing
from each bucket to the next while every bucket's sophistication lies
in `[0, 1]`. -/
theorem aggregate_monthly_invariants (scored : List ScoredCommit) (epoch today : PyDate)
    (hm1 : 1 ≤ epoch.m) (hm2 : epoch.m ≤ 12)
    (ht : ∀ s ∈ scored, 0 ≤ s.total)
    (hc : ∀ s ∈ scored, ∀ p ∈ s.cats, 0 ≤ p.2) :
    ((aggregate_monthly scored epoch today).map MonthlyBucket.month
        = monthsFrom epoch.y epoch.m today.y today.m)
    ∧ (∀ y m : ℕ, 1 ≤ m → m ≤ 12 →
        (epoch.y < y ∨ (epoch.y = y ∧ epoch.m ≤ m)) →
        (y < today.y ∨ (y = today.y ∧ m ≤ today.m)) →
        (y, m) ∈ (aggregate_monthly scored epoch today).map MonthlyBucket.month)
    ∧ List.Chain' (fun a b => a.cumulative_commits ≤ b.cumulative_commits)
        (aggregate_monthly scored epoch today)
    ∧ List.Chain' (fun a b => a.cumulative_capability ≤ b.cumulative_capability)
        (aggregate_monthly scored epoch today)
    ∧ (∀ b ∈ aggregate_monthly scored epoch today,
        0 ≤ b.sophistication ∧ b.sophistication ≤ 1)
    ∧ (∀ b ∈ aggregate_monthly scored epoch today,
        monthCommits scored b.month = 0 → b.commits = 0 ∧ b.capability = 0) := by
  refine ⟨buildMonthly_months scored _ 0 0, ?_, buildMonthly_chain_commits scored _ 0 0,
    buildMonthly_chain_capability scored ht _ 0 0,
    buildMonthly_soph_mem_unit scored hc _ 0 0, buildMonthly_zero_filled scored _ 0 0⟩
  intro y m h1 h2 hlo hhi
  show (y, m) ∈ (buildMonthly scored
    (monthsFrom epoch.y epoch.m today.y today.m) 0 0).map MonthlyBucket.month
  rw [buildMonthly_months scored _ 0 0]
  exact monthsFrom_mem epoch.y epoch.m today.y today.m y m hm2 h1 h2 hlo hhi

/-- C9 witness: a one-commit January over a January–March window. -/
theorem aggregate_monthly_invariants_witness :
    (1 ≤ (⟨2025, 1, 1⟩ : PyDate).m ∧ (⟨2025, 1, 1⟩ : PyDate).m ≤ 12
     ∧ (∀ s ∈ [(⟨⟨2025, 1, 15⟩, 10, [("foundation", 5), ("agents", 5)]⟩ : ScoredCommit)],
          0 ≤ s.total)
     ∧ (∀ s ∈ [(⟨⟨2025, 1, 15⟩, 10, [("foundation", 5), ("agents", 5)]⟩ : ScoredCommit)],
          ∀ p ∈ s.cats, 0 ≤ p.2))
    ∧ List.Chain' (fun a b => a.cumulative_commits ≤ b.cumulative_commits)
        (aggregate_monthly [⟨⟨2025, 1, 15⟩, 10, [("foundation", 5), ("agents", 5)]⟩]
          ⟨2025, 1, 1⟩ ⟨2025, 3, 31⟩)
    ∧ (∀ b ∈ aggregate_monthly [⟨⟨2025, 1, 15⟩, 10, [("foundation", 5), ("agents", 5)]⟩]
          ⟨2025, 1, 1⟩ ⟨2025, 3, 31⟩, 0 ≤ b.sophistication ∧ b.sophistication ≤ 1) := by
  have h1 : ∀ s ∈ [(⟨⟨2025, 1, 15⟩, 10, [("foundation", 5), ("agents", 5)]⟩ : ScoredCommit)],
      0 ≤ s.total := by
    intro s hs
    rcases List.mem_cons.mp hs with rfl | hs'
    · norm_num
    · cases hs'
  have h2 : ∀ s ∈ [(⟨⟨2025, 1, 15⟩, 10, [("foundation", 5), ("agents", 5)]⟩ : ScoredCommit)],
      ∀ p ∈ s.cats, 0 ≤ p.2 := by
    intro s hs p hp
    rcases List.mem_cons.mp hs with rfl | hs'
    · rcases List.mem_cons.mp hp with rfl | hp'
      · norm_num
      · rcases List.mem_cons.mp hp' with rfl | hp''
        · norm_num
        · cases hp''
    · cases hs'
  have main := aggregate_monthly_invariants
    [⟨⟨2025, 1, 15⟩, 10, [("foundation", 5), ("agents", 5)]⟩]
    ⟨2025, 1, 1⟩ ⟨2025, 3, 31⟩ (by norm_num) (by norm_num) h1 h2
  exact ⟨⟨by norm_num, by norm_num, h1, h2⟩, main.2.2.1, main.2.2.2.2.1⟩

end SingingClock
